import Mathlib

/-!
Verification development for the to-doc directory-aggregation tool
(src/to-doc/to_doc.py).  The Python functions are shallowly embedded as
executable Lean definitions; filesystem access, the pathspec matcher and
pathlib path arithmetic are external collaborators and are modelled by
explicit data (read outcomes, pattern lists, path strings).  Newlines are
modelled as the LF character, which matches the tool because read_text
uses universal-newline decoding.
-/

namespace ToDoc

/-- Python string comparison (code-point lexicographic) as a Bool on char lists. -/
def charListLe : List Char → List Char → Bool
  | [], _ => true
  | _ :: _, [] => false
  | a :: as, b :: bs => if a < b then true else if b < a then false else charListLe as bs

/-- Split a char list on a separator char; models Python str.split with one separator. -/
def splitChar (sep : Char) : List Char → List (List Char)
  | [] => [[]]
  | c :: rest =>
    let r := splitChar sep rest
    if c = sep then [] :: r
    else
      match r with
      | [] => [[c]]
      | h :: t => (c :: h) :: t

/-- The line chunks of a char list: maximal runs ending in a newline, plus a
possibly unterminated final run.  Models Python str.splitlines(keepends=True)
for LF-separated text. -/
def lineChunks : List Char → List (List Char)
  | [] => []
  | c :: cs =>
    if c = '\n' then ['\n'] :: lineChunks cs
    else
      match lineChunks cs with
      | [] => [[c]]
      | l :: L => (c :: l) :: L

/-- A line consisting only of whitespace; Python textwrap.indent leaves such lines alone. -/
def isBlankLine (l : List Char) : Bool := l.all Char.isWhitespace

/-- Model of textwrap.indent on char lists: each non-whitespace-only line gets the
given pfx, whitespace-only lines are unchanged. -/
def pyIndentData (p : List Char) (cs : List Char) : List Char :=
  ((lineChunks cs).map (fun l => if isBlankLine l then l else p ++ l)).flatten

/-- Model of textwrap.indent(s, p). -/
def pyIndent (s p : String) : String := ⟨pyIndentData p.data s.data⟩

/-- Model of Python str.strip(): drop leading and trailing whitespace. -/
def pyStrip (s : String) : String :=
  ⟨((s.data.dropWhile Char.isWhitespace).reverse.dropWhile Char.isWhitespace).reverse⟩

/-- Model of Python str.startswith. -/
def pyStartsWith (s pre : String) : Bool := pre.data.isPrefixOf s.data

/-- Model of Python str.endswith. -/
def pyEndsWith (s suf : String) : Bool := suf.data.isSuffixOf s.data

/-- Model of Python str.lower (ASCII is what matters for extensions). -/
def pyLower (s : String) : String := ⟨s.data.map Char.toLower⟩

/-- Sequential concatenation of written strings (the successive out.write calls). -/
def strJoin : List String → String
  | [] => ""
  | s :: r => s ++ strJoin r

/-- Split a char list at its last dot: some (before, after) with no dot in after. -/
def splitLastDot : List Char → Option (List Char × List Char)
  | [] => none
  | c :: rest =>
    match splitLastDot rest with
    | some (a, b) => some (c :: a, b)
    | none => if c = '.' then some ([], rest) else none

/-- Model of pathlib PurePath.name: the last component, ignoring empty and dot
components (pathlib normalizes those away). -/
def path_name (o : String) : String :=
  ⟨((splitChar '/' o.data).filter (fun c => !c.isEmpty && !(c == ['.']))).getLastD []⟩

/-- Model of pathlib suffix extraction from a component name: name[i:] for the last
dot index i when 0 < i < len(name)-1, else empty. -/
def name_suffix (nm : String) : String :=
  match splitLastDot nm.data with
  | none => ""
  | some (a, b) => if a.isEmpty || b.isEmpty then "" else ⟨'.' :: b⟩

/-- Model of pathlib Path.suffix on a path string. -/
def pySuffix (o : String) : String := name_suffix (path_name o)

/-- Model of pathlib Path.with_suffix for paths whose final component is a genuine
name (pathlib raises ValueError on an empty name; that is outside this model). -/
def pyWithSuffix (o suf : String) : String :=
  ⟨o.data.take (o.data.length - (pySuffix o).data.length) ++ suf.data⟩

/-- Outcome of attempting to read a file as UTF-8 text; the exception cases are the
ones the source catches. -/
inductive ReadResult
  | ok (s : String)
  | unicodeDecodeError
  | permissionError
  | osError
deriving DecidableEq

def ReadResult.isOk : ReadResult → Bool
  | .ok _ => true
  | _ => false

/-- Embedding of read_file_content: returns the content and the diagnostics echoed
to the error stream.  The source catches UnicodeDecodeError, PermissionError and
OSError, echoes a message naming the path, and returns the empty string. -/
def read_file_content (p : String) (r : ReadResult) : String × List String :=
  match r with
  | .ok s => (s, [])
  | .unicodeDecodeError => ("", [("Failed to read ") ++ p ++ (": UnicodeDecodeError")])
  | .permissionError => ("", [("Failed to read ") ++ p ++ (": PermissionError")])
  | .osError => ("", [("Failed to read ") ++ p ++ (": OSError")])

/-- State of the ignore-rules file next to the script: absent, unreadable, or its lines. -/
inductive IgnoreFile
  | missing
  | unreadable
  | content (lines : List String)

/-- A compiled pathspec.PathSpec: the list of pattern lines handed to from_lines. -/
structure PathSpec where
  patterns : List String
deriving DecidableEq

/-- Model of the external pathspec gitwildmatch matcher, restricted to literal
patterns (no wildcards and no negation; only literal patterns occur in this
development).  A pattern without a slash matches any path having it as a
component; a pattern with a slash matches the path itself or anything below it;
empty and comment patterns match nothing. -/
def gitwildmatch_matches (pat p : String) : Bool :=
  if pat.data.isEmpty then false
  else if pyStartsWith pat ("#") then false
  else if pat.data.contains '/' then (p == pat) || pyStartsWith p (pat ++ ("/"))
  else (splitChar '/' p.data).contains pat.data

def PathSpec.match_file (s : PathSpec) (p : String) : Bool :=
  s.patterns.any (fun pat => gitwildmatch_matches pat p)

/-- Embedding of get_ignore_spec: if the rules file exists its lines are filtered
(kept when the stripped line is nonempty and the raw line does not start with a
hash) and stripped; a missing file or a read failure yields the EMPTY pattern
list.  Second component: diagnostics echoed to the error stream. -/
def get_ignore_spec (f : IgnoreFile) : PathSpec × List String :=
  match f with
  | .missing => (⟨[]⟩, [])
  | .unreadable => (⟨[]⟩, [("Warning: Failed to read ignore file")])
  | .content lines =>
    (⟨(lines.filter (fun l => !((pyStrip l) == ("")) && !(pyStartsWith l ("#")))).map pyStrip⟩, [])

/-- One filesystem entry as enumerated by root_dir.rglob: its path string, whether
it is a regular file, and what reading it yields. -/
structure FSEntry where
  path : String
  isFile : Bool
  read : ReadResult
deriving DecidableEq

/-- Embedding of the FileInfo dataclass (line_count and path participate in
ordering, content does not). -/
structure FileInfo where
  line_count : Nat
  path : String
  content : String
deriving DecidableEq

/-- line_count computation: len(content.splitlines()) if content else 0. -/
def line_count_of (content : String) : Nat :=
  if content == ("") then 0 else (lineChunks content.data).length

def ext_excluded (ex : Option (List String)) (p : String) : Bool :=
  match ex with
  | none => false
  | some l => l.contains (pyLower (pySuffix p))

def size_excluded (ml : Option Nat) (lc : Nat) : Bool :=
  match ml with
  | none => false
  | some m => decide (m < lc)

/-- The filtering loop of collect_files over the rglob enumeration, returning the
surviving records in traversal order together with the two filter counters
(filtered by size, filtered by extension). -/
def collect_loop (spec : PathSpec) (ml : Option Nat) (ex : Option (List String)) :
    List FSEntry → List FileInfo × Nat × Nat
  | [] => ([], 0, 0)
  | e :: rest =>
    let acc := collect_loop spec ml ex rest
    if spec.match_file e.path then acc
    else if !e.isFile then acc
    else if ext_excluded ex e.path then (acc.1, acc.2.1, acc.2.2 + 1)
    else
      let content := (read_file_content e.path e.read).1
      let lc := line_count_of content
      if size_excluded ml lc then (acc.1, acc.2.1 + 1, acc.2.2)
      else if 0 < lc then (⟨lc, e.path, content⟩ :: acc.1, acc.2.1, acc.2.2)
      else acc

/-- Python sorted(files, reverse=True) key: the dataclass tuple (line_count, path),
descending, stable.  a may precede b iff key b is at most key a. -/
def descLe (a b : FileInfo) : Bool :=
  if a.line_count = b.line_count then charListLe b.path.data a.path.data
  else decide (b.line_count < a.line_count)

def descLeP (a b : FileInfo) : Prop := descLe a b = true

instance : DecidableRel descLeP := fun a b => inferInstanceAs (Decidable (_ = true))

/-- Embedding of collect_files: run the loop and sort the result descending by
(line_count, path); the insertion sort is stable, like Python sorted. -/
def collect_files (fs : List FSEntry) (ig : IgnoreFile) (ml : Option Nat)
    (ex : Option (List String)) : List FileInfo × Nat × Nat :=
  let spec := (get_ignore_spec ig).1
  let r := collect_loop spec ml ex fs
  (List.insertionSort descLeP r.1, r.2.1, r.2.2)

/-- Strip a leading segment from a char list, if it is there. -/
def stripLead : List Char → List Char → Option (List Char)
  | [], s => some s
  | _ :: _, [] => none
  | a :: as, c :: cs => if a = c then stripLead as cs else none

/-- Model of file_info.path.relative_to(root_dir) for paths under the root. -/
def relative_to (p root : String) : String :=
  match stripLead (root ++ ("/")).data p.data with
  | some r => ⟨r⟩
  | none => p

/-- On-disk content lookup in the pre-run snapshot: look the path up in the
enumeration; absent paths or directories read as the empty string (OSError). -/
def readAt (fs : List FSEntry) (p : String) : String :=
  match fs.find? (fun e => e.path == p) with
  | some e => if e.isFile then (read_file_content p e.read).1 else ""
  | none => ""

/-- What the writer sees when it re-reads a path: write_output_file opens the
output path with mode w, which truncates that file on disk before any re-read,
and the document bytes produced so far sit in the process buffer until close;
a re-read of the output path during writing therefore yields the empty string,
while every other path re-reads its on-disk content. -/
def writer_read (fs : List FSEntry) (output_path p : String) : String :=
  if p == output_path then "" else readAt fs p

/-- The file_block f-string of write_output_file, content indented by four spaces
via textwrap.indent. -/
def file_block (rel content : String) : String :=
  ("<file>\n  <path>") ++ rel ++ ("</path>\n  <content>\n") ++
    pyIndent content ("    ") ++ ("\n  </content>\n</file>\n")

/-- Python sorted(files, key=path): ascending by path string, stable. -/
def pathLe (a b : FileInfo) : Prop := charListLe a.path.data b.path.data = true

instance : DecidableRel pathLe := fun a b => inferInstanceAs (Decidable (_ = true))

/-- What one record contributes to the output: the indented block when the freshly
re-read content is nonempty, nothing otherwise. -/
def writeEntry (fs : List FSEntry) (output_path root : String) (fi : FileInfo) : String :=
  let content := writer_read fs output_path fi.path
  if content == ("") then "" else pyIndent (file_block (relative_to fi.path root) content) ("  ")

/-- Embedding of write_output_file: sort by path, wrap the per-record blocks in the
root tag.  The returned string is the full content written to the output path
(visible on disk at close). -/
def write_output_file (fs : List FSEntry) (files : List FileInfo)
    (output_path root : String) : String :=
  ("<files>\n") ++
    strJoin ((List.insertionSort pathLe files).map (writeEntry fs output_path root)) ++
    ("</files>")

/-- The (relative path, re-read content) pairs that actually get a block in the
output, in emission order. -/
def emitted_entries (fs : List FSEntry) (files : List FileInfo)
    (output_path root : String) : List (String × String) :=
  ((List.insertionSort pathLe files).map
      (fun fi => (relative_to fi.path root, writer_read fs output_path fi.path))).filter
    (fun pr => !(pr.2 == ("")))

/-- Embedding of get_default_output_path: root_dir / (resolved-name + "-llms.log"),
for a normalized root directory string. -/
def get_default_output_path (dir nm : String) : String :=
  dir ++ ("/") ++ (nm ++ ("-llms.log"))

/-- The output-path resolution in main: default inside the root when none is given,
otherwise append ".log" only when the supplied path has no suffix. -/
def resolve_output (dir nm : String) (o : Option String) : String :=
  match o with
  | none => get_default_output_path dir nm
  | some s => if (pySuffix s) == ("") then pyWithSuffix s (".log") else s

/-- Extension normalization in main: lowercase, with a leading dot added if absent. -/
def normalize_ext (e : String) : String :=
  if pyStartsWith e (".") then pyLower e else (".") ++ pyLower e

/-- The configuration main receives: CLI options plus the environment facts main
consults (whether the root is a directory, its resolved name, the state of the
ignore file next to the script). -/
structure Config where
  directory : String
  resolvedName : String
  rootIsDir : Bool
  output : Option String
  dry : Bool
  max_lines : Nat
  no_limit : Bool
  exclude : Option (List String)
  ignoreFile : IgnoreFile

def effective_max_lines (cfg : Config) : Option Nat :=
  if cfg.no_limit then none else some cfg.max_lines

/-- exclude_extensions in main: None stays None, an empty list is falsy and also
yields None, otherwise the normalized extensions. -/
def exclude_set (cfg : Config) : Option (List String) :=
  match cfg.exclude with
  | none => none
  | some l => if l.isEmpty then none else some (l.map normalize_ext)

/-- The collected records of a run, as main computes them. -/
def main_files (fs : List FSEntry) (cfg : Config) : List FileInfo :=
  (collect_files fs cfg.ignoreFile (effective_max_lines cfg) (exclude_set cfg)).1

/-- FileInfo.__str__. -/
def fileInfoStr (fi : FileInfo) : String :=
  fi.path ++ (" (") ++ Nat.repr fi.line_count ++ (" lines)")

/-- Observable outcome of one main invocation: exit code, stdout echoes, and the
output file written (path and full content), if any. -/
structure RunResult where
  exit : Nat
  stdout : List String
  written : Option (String × String)

def strLeP (a b : String) : Prop := charListLe a.data b.data = true

instance : DecidableRel strLeP := fun a b => inferInstanceAs (Decidable (_ = true))

def joinSep (sep : String) : List String → String
  | [] => ""
  | [s] => s
  | s :: r => s ++ sep ++ joinSep sep r

/-- Embedding of main. -/
def main (fs : List FSEntry) (cfg : Config) : RunResult :=
  if cfg.rootIsDir = false then
    ⟨1, [cfg.directory ++ (" is not a directory")], none⟩
  else
    let output := resolve_output cfg.directory cfg.resolvedName cfg.output
    let files := main_files fs cfg
    let total := (files.map FileInfo.line_count).sum
    if cfg.dry then
      ⟨0,
        [("Dry run, listing files that would be included:\n")] ++
          files.map fileInfoStr ++
          [("\nTotal lines: ") ++ Nat.repr total,
           ("Total files: ") ++ Nat.repr files.length] ++
          (match effective_max_lines cfg with
           | some m =>
             if m = 0 then [("Max lines per file: No limit")]
             else [("Max lines per file: ") ++ Nat.repr m]
           | none => [("Max lines per file: No limit")]) ++
          (match exclude_set cfg with
           | some l =>
             [("Excluded extensions: ") ++ joinSep (", ") (List.insertionSort strLeP l.dedup)]
           | none => []) ++
          [("Output file: ") ++ output],
        none⟩
    else
      ⟨0,
        [("Writing ") ++ Nat.repr files.length ++ (" files with ") ++ Nat.repr total ++
          (" lines to ") ++ output],
        some (output, write_output_file fs files output cfg.directory)⟩

/-! Spec-side comparison definitions (following the spec wording, for refutation
of the claims that disagree with the source). -/

/-- Spec reading of the rules-file parser: trim first, then drop empty lines and
lines whose TRIMMED form starts with a hash. -/
def spec_parse_rules (lines : List String) : List String :=
  (lines.filter (fun l => !((pyStrip l) == ("")) && !(pyStartsWith (pyStrip l) ("#")))).map pyStrip

/-- Spec reading of content indentation: every line receives the four-space
indent, blank lines included. -/
def spec_indent_data (p cs : List Char) : List Char :=
  ((lineChunks cs).map (fun l => p ++ l)).flatten

def spec_pyIndent (s p : String) : String := ⟨spec_indent_data p.data s.data⟩

def spec_file_block (rel content : String) : String :=
  ("<file>\n  <path>") ++ rel ++ ("</path>\n  <content>\n") ++
    spec_pyIndent content ("    ") ++ ("\n  </content>\n</file>\n")

def spec_writeEntry (fs : List FSEntry) (output_path root : String) (fi : FileInfo) : String :=
  let content := writer_read fs output_path fi.path
  if content == ("") then ""
  else spec_pyIndent (spec_file_block (relative_to fi.path root) content) ("  ")

/-- The writer as the spec describes indentation: every content line, blank lines
included, indented. -/
def spec_write_output_file (fs : List FSEntry) (files : List FileInfo)
    (output_path root : String) : String :=
  ("<files>\n") ++
    strJoin ((List.insertionSort pathLe files).map (spec_writeEntry fs output_path root)) ++
    ("</files>")

/-! Concrete fixtures used by counterexamples and witnesses. -/

/-- A run on a root containing one small text file, with every CLI default. -/
def cfg1 : Config := ⟨("root"), ("root"), true, none, false, 2000, false, none, IgnoreFile.missing⟩

def fs1 : List FSEntry := [⟨("root/a.txt"), true, ReadResult.ok ("hi\n")⟩]

/-- The document the first run writes for fs1 under cfg1. -/
def out1 : String :=
  "<files>\n  <file>\n    <path>a.txt</path>\n    <content>\n      hi\n\n    </content>\n  </file>\n</files>"

/-- The same tree after the first run: the output document now exists inside the
root and is enumerated by the second scan. -/
def fs2 : List FSEntry := fs1 ++ [⟨("root/root-llms.log"), true, ReadResult.ok out1⟩]

def gitFs : List FSEntry := [⟨("root/.git/config"), true, ReadResult.ok ("x\n")⟩]

/-- Notebook JSON with a null execution counter and no outputs. -/
def nbA : String :=
  "\x7b\"cells\": [\x7b\"cell_type\": \"code\", \"execution_count\": null, \"outputs\": [], \"source\": [\"print(1)\"]\x7d], \"metadata\": \x7b\x7d\x7d"

/-- The same notebook after one execution: counter set and an output blob stored. -/
def nbB : String :=
  "\x7b\"cells\": [\x7b\"cell_type\": \"code\", \"execution_count\": 2, \"outputs\": [\x7b\"text\": \"1\"\x7d], \"source\": [\"print(1)\"]\x7d], \"metadata\": \x7b\x7d\x7d"

/-- A file whose content has a blank middle line. -/
def fsB : List FSEntry := [⟨("root/m.txt"), true, ReadResult.ok ("a\n\nb\n")⟩]

def fiB : FileInfo := ⟨3, ("root/m.txt"), ("a\n\nb\n")⟩

/-! General lemmas about the embedded operations. -/

theorem str_data_append (a b : String) : (a ++ b).data = a.data ++ b.data := by
  cases a; cases b; rfl

theorem empty_str_append (s : String) : ("") ++ s = s := by
  cases s; rfl

theorem collect_loop_pos (spec : PathSpec) (ml : Option Nat) (ex : Option (List String)) :
    ∀ fs : List FSEntry, ∀ fi ∈ (collect_loop spec ml ex fs).1, 0 < fi.line_count := by
  intro fs
  induction fs with
  | nil => intro fi h; simp [collect_loop] at h
  | cons e rest ih =>
    intro fi h
    simp only [collect_loop] at h
    split at h
    · exact ih fi h
    · split at h
      · exact ih fi h
      · split at h
        · exact ih fi h
        · split at h
          · exact ih fi h
          · split at h
            · rcases List.mem_cons.mp h with rfl | hm
              · simpa using by assumption
              · exact ih fi hm
            · exact ih fi h

theorem collect_loop_path_mem (spec : PathSpec) (ml : Option Nat) (ex : Option (List String)) :
    ∀ fs : List FSEntry, ∀ fi ∈ (collect_loop spec ml ex fs).1, ∃ e ∈ fs, fi.path = e.path := by
  intro fs
  induction fs with
  | nil => intro fi h; simp [collect_loop] at h
  | cons e rest ih =>
    intro fi h
    simp only [collect_loop] at h
    have step : ∀ h₀ : fi ∈ (collect_loop spec ml ex rest).1, ∃ x ∈ e :: rest, fi.path = x.path := by
      intro h₀
      obtain ⟨x, hx, hp⟩ := ih fi h₀
      exact ⟨x, List.mem_cons_of_mem _ hx, hp⟩
    split at h
    · exact step h
    · split at h
      · exact step h
      · split at h
        · exact step h
        · split at h
          · exact step h
          · split at h
            · rcases List.mem_cons.mp h with rfl | hm
              · exact ⟨e, List.mem_cons_self _ _, rfl⟩
              · exact step hm
            · exact step h

/-! C1. The spec says read_file_content cleans notebook documents (clears outputs,
execution counters and metadata) so that two notebooks differing only in those
fields yield identical cleaned text.  The code has no such branch: every readable
file, .ipynb included, is returned verbatim (even though its docstring announces
cleaning and nbformat is imported for it). -/

/-- C1: the code returns notebook text verbatim; two notebooks that differ only in
execution_count and outputs therefore yield different text, contradicting the
claimed cleaning. -/
theorem c1_notebook_not_cleaned :
    (read_file_content ("root/nb.ipynb") (ReadResult.ok nbA)).1 = nbA ∧
    (read_file_content ("root/nb.ipynb") (ReadResult.ok nbB)).1 = nbB ∧
    nbA ≠ nbB :=
  ⟨rfl, rfl, by decide⟩

/-! C2. The spec claims a built-in default ignore list (version control, caches,
and so on) as fallback; the code falls back to the empty pattern list, which
matches nothing, so .git/config is collected. -/

/-- C2 counterexample: with no rules file the compiled spec is the empty pattern
list, it does not match .git/config, and a .git/config entry survives collection. -/
theorem c2_counterexample :
    (get_ignore_spec IgnoreFile.missing).1.patterns = [] ∧
    (get_ignore_spec IgnoreFile.missing).1.match_file (".git/config") = false ∧
    ((collect_files gitFs IgnoreFile.missing none none).1.map FileInfo.path) =
      [("root/.git/config")] := by
  decide

/-- C2 amended: when the rules file is missing or unreadable the resolver yields
the empty pattern list, which excludes no path at all. -/
theorem c2_amended (f : IgnoreFile) (p : String)
    (h : f = IgnoreFile.missing ∨ f = IgnoreFile.unreadable) :
    (get_ignore_spec f).1.patterns = [] ∧ (get_ignore_spec f).1.match_file p = false := by
  rcases h with rfl | rfl <;> exact ⟨rfl, rfl⟩

theorem c2_amended_witness :
    (get_ignore_spec IgnoreFile.missing).1.patterns = [] ∧
    (get_ignore_spec IgnoreFile.missing).1.match_file ("node_modules/a.js") = false :=
  c2_amended IgnoreFile.missing ("node_modules/a.js") (Or.inl rfl)

/-! C6. The code checks startswith on the RAW line, before trimming, so a comment
line with leading whitespace is not dropped; its trimmed text is compiled. -/

/-- C6 counterexample: the line two-spaces-hash-cache is kept (trimmed) by the
code, while the spec description drops it. -/
theorem c6_counterexample :
    (get_ignore_spec (IgnoreFile.content [("  #cache")])).1.patterns = [("#cache")] ∧
    spec_parse_rules [("  #cache")] = [] := by
  decide

theorem dropWhile_last_not (p : Char → Bool) (a : Char) (h : p a = false) :
    ∀ xs : List Char, List.dropWhile p (xs ++ [a]) = List.dropWhile p xs ++ [a] := by
  intro xs
  induction xs with
  | nil => simp [List.dropWhile, h]
  | cons c cs ih =>
    by_cases hc : p c
    · simpa [List.dropWhile, hc] using ih
    · simp [List.dropWhile, hc]

theorem pyStrip_hash (l : String) (h : pyStartsWith l ("#") = true) :
    pyStartsWith (pyStrip l) ("#") = true := by
  obtain ⟨d⟩ := l
  match d, h with
  | c :: cs, h =>
    have hc : c = '#' := by
      have : (('#' == c) && List.isPrefixOf [] cs) = true := h
      simp at this
      exact this.symm
    subst hc
    show List.isPrefixOf ['#'] _ = true
    have h1 : List.dropWhile Char.isWhitespace ('#' :: cs) = '#' :: cs := by
      simp [List.dropWhile]
    simp only [pyStrip, h1]
    have h2 : ('#' :: cs).reverse = cs.reverse ++ ['#'] := by simp
    rw [h2, dropWhile_last_not Char.isWhitespace '#' (by decide)]
    simp [List.isPrefixOf]

/-- C6 amended: the resolver trims each line and keeps it when the trimmed form is
nonempty and the RAW line does not start with a hash; on any file in which every
comment line has its hash in column zero this coincides with the spec
description. -/
theorem c6_amended (lines : List String)
    (h : ∀ l ∈ lines, pyStartsWith (pyStrip l) ("#") = true → pyStartsWith l ("#") = true) :
    (get_ignore_spec (IgnoreFile.content lines)).1.patterns = spec_parse_rules lines := by
  simp only [get_ignore_spec, spec_parse_rules]
  congr 1
  apply List.filter_congr
  intro l hl
  by_cases h1 : (pyStrip l) == ("")
  · simp [h1]
  · simp only [h1, Bool.not_false, Bool.true_and]
    by_cases h2 : pyStartsWith l ("#") = true
    · rw [h2, pyStrip_hash l h2]
    · have h2f : pyStartsWith l ("#") = false := by revert h2; cases pyStartsWith l ("#") <;> simp
      have h3 : pyStartsWith (pyStrip l) ("#") = false := by
        by_contra hcon
        have : pyStartsWith (pyStrip l) ("#") = true := by
          revert hcon; cases pyStartsWith (pyStrip l) ("#") <;> simp
        exact h2 (h l hl this)
      rw [h2f, h3]

theorem c6_amended_witness :
    (get_ignore_spec (IgnoreFile.content [("#comment"), ("  keep  "), ("")])).1.patterns =
      spec_parse_rules [("#comment"), ("  keep  "), ("")] :=
  c6_amended [("#comment"), ("  keep  "), ("")] (by decide)

/-! C7. read_file_content recovers from every caught failure: empty string result
plus a diagnostic naming the path. -/

/-- C7: on any failing read the function returns the empty string and emits exactly
one diagnostic that contains the offending path; it never raises (it is total). -/
theorem c7_read_errors_recovered (p : String) (r : ReadResult) (h : r.isOk = false) :
    (read_file_content p r).1 = ("") ∧
    ∃ d, (read_file_content p r).2 = [d] ∧ ∃ a b : String, d = a ++ p ++ b := by
  cases r with
  | ok s => simp [ReadResult.isOk] at h
  | unicodeDecodeError =>
    exact ⟨rfl, ⟨_, rfl, ⟨("Failed to read "), (": UnicodeDecodeError"), rfl⟩⟩⟩
  | permissionError =>
    exact ⟨rfl, ⟨_, rfl, ⟨("Failed to read "), (": PermissionError"), rfl⟩⟩⟩
  | osError =>
    exact ⟨rfl, ⟨_, rfl, ⟨("Failed to read "), (": OSError"), rfl⟩⟩⟩

theorem c7_witness :
    (read_file_content ("secret.txt") ReadResult.permissionError).1 = ("") ∧
    ∃ d, (read_file_content ("secret.txt") ReadResult.permissionError).2 = [d] ∧
      ∃ a b : String, d = a ++ ("secret.txt") ++ b :=
  c7_read_errors_recovered ("secret.txt") ReadResult.permissionError (by decide)

theorem pyStartsWith_append (pre rest : String) : pyStartsWith (pre ++ rest) pre = true := by
  simp [pyStartsWith, str_data_append]

theorem pyWithSuffix_of_no_suffix (o suf : String) (h : pySuffix o = ("")) :
    pyWithSuffix o suf = o ++ suf := by
  obtain ⟨d⟩ := o
  obtain ⟨sd⟩ := suf
  simp only [pyWithSuffix, h]
  show String.mk (d.take (d.length - ("" : String).data.length) ++ sd) = _
  have hz : ("" : String).data.length = 0 := rfl
  rw [hz, Nat.sub_zero, List.take_length]
  rfl

/-! C10. Default output path lands inside the scanned root; a supplied output path
without an extension gets ".log" appended and an extension is kept unchanged. -/

/-- C10: with no output argument the resolved path is rootDir/resolvedName-llms.log,
which lies inside the root; a supplied path with empty suffix gets ".log" appended,
one with a suffix is kept.  The hypotheses restrict o to paths whose final
component is a genuine name, which is where the pathlib model is faithful. -/
theorem c10_output_path (dir nm o : String)
    (h1 : pyEndsWith o ("/") = false)
    (h2 : path_name o ≠ ("") ∧ path_name o ≠ (".") ∧ path_name o ≠ ("..")) :
    resolve_output dir nm none = dir ++ ("/") ++ (nm ++ ("-llms.log")) ∧
    pyStartsWith (resolve_output dir nm none) (dir ++ ("/")) = true ∧
    ((pySuffix o == ("")) = true → resolve_output dir nm (some o) = o ++ (".log")) ∧
    ((pySuffix o == ("")) = false → resolve_output dir nm (some o) = o) := by
  refine ⟨rfl, ?_, ?_, ?_⟩
  · exact pyStartsWith_append (dir ++ ("/")) (nm ++ ("-llms.log"))
  · intro he
    have he' : pySuffix o = ("") := by simpa using he
    simp only [resolve_output, he, if_true]
    exact pyWithSuffix_of_no_suffix o (".log") he'
  · intro he
    simp [resolve_output, he]

theorem c10_witness :
    resolve_output ("proj") ("proj") none = ("proj") ++ ("/") ++ (("proj") ++ ("-llms.log")) ∧
    pyStartsWith (resolve_output ("proj") ("proj") none) (("proj") ++ ("/")) = true ∧
    ((pySuffix ("notes") == ("")) = true →
      resolve_output ("proj") ("proj") (some ("notes")) = ("notes") ++ (".log")) ∧
    ((pySuffix ("notes") == ("")) = false →
      resolve_output ("proj") ("proj") (some ("notes")) = ("notes")) :=
  c10_output_path ("proj") ("proj") ("notes") (by decide) (by decide)

/-! C9. A dry run never writes. -/

/-- C9: with the dry flag set, main writes no output document, and (when the root
exists) the listing names every collected file and reports the totals. -/
theorem c9_dry_no_write (fs : List FSEntry) (cfg : Config) (h : cfg.dry = true) :
    (main fs cfg).written = none ∧
    (cfg.rootIsDir = true →
      (∀ fi ∈ main_files fs cfg, fileInfoStr fi ∈ (main fs cfg).stdout) ∧
      (("Total files: ") ++ Nat.repr (main_files fs cfg).length) ∈ (main fs cfg).stdout) := by
  by_cases hr : cfg.rootIsDir = false
  · refine ⟨by simp [main, hr], ?_⟩
    intro h'
    rw [h'] at hr
    cases hr
  · have hr' : cfg.rootIsDir = true := by revert hr; cases cfg.rootIsDir <;> simp
    refine ⟨by simp [main, hr', h], ?_⟩
    intro _
    constructor
    · intro fi hfi
      simp [main, hr', h]
      exact Or.inr (Or.inl ⟨fi, hfi, rfl⟩)
    · simp [main, hr', h]

theorem c9_witness :
    (main fs1 ⟨("root"), ("root"), true, none, true, 2000, false, none, IgnoreFile.missing⟩).written =
      none ∧
    fileInfoStr ⟨1, ("root/a.txt"), ("hi\n")⟩ ∈
      (main fs1 ⟨("root"), ("root"), true, none, true, 2000, false, none, IgnoreFile.missing⟩).stdout :=
  ⟨(c9_dry_no_write fs1 ⟨("root"), ("root"), true, none, true, 2000, false, none,
      IgnoreFile.missing⟩ (by decide)).1,
   ((c9_dry_no_write fs1 ⟨("root"), ("root"), true, none, true, 2000, false, none,
      IgnoreFile.missing⟩ (by decide)).2 (by decide)).1 ⟨1, ("root/a.txt"), ("hi\n")⟩ (by decide)⟩

/-! C5. No empty file entries: zero-line records never leave the collection stage
and the writer skips records whose re-read content is empty. -/

theorem writeEntry_join (fs : List FSEntry) (outP root : String) :
    ∀ l : List FileInfo,
      strJoin (l.map (writeEntry fs outP root)) =
        strJoin (((l.map
            (fun fi => (relative_to fi.path root, writer_read fs outP fi.path))).filter
            (fun pr => !(pr.2 == ("")))).map
          (fun pr => pyIndent (file_block pr.1 pr.2) ("  "))) := by
  intro l
  induction l with
  | nil => rfl
  | cons fi rest ih =>
    by_cases hc : (writer_read fs outP fi.path == ("")) = true
    · have hw : writeEntry fs outP root fi = ("") := by simp [writeEntry, hc]
      simp only [List.map_cons, List.filter_cons, hc, Bool.not_true, if_false, strJoin]
      rw [hw, empty_str_append, ih]
      simp [hc]
    · have hcf : (writer_read fs outP fi.path == ("")) = false := by
        revert hc; cases writer_read fs outP fi.path == ("") <;> simp
      have hw : writeEntry fs outP root fi =
          pyIndent (file_block (relative_to fi.path root) (writer_read fs outP fi.path))
            ("  ") := by
        simp [writeEntry, hcf]
      simp only [List.map_cons, List.filter_cons, hcf, Bool.not_false, if_true, strJoin]
      rw [hw, ih]

/-- C5: every collected record has a positive line count; every emitted entry has
nonempty content; and the written document is exactly the wrapper around the
blocks of the emitted entries, so no empty file block is ever written. -/
theorem c5_no_empty_output (fs : List FSEntry) (ig : IgnoreFile) (ml : Option Nat)
    (ex : Option (List String)) (files : List FileInfo) (outP root : String) :
    (∀ fi ∈ (collect_files fs ig ml ex).1, 0 < fi.line_count) ∧
    (∀ pr ∈ emitted_entries fs files outP root, pr.2 ≠ ("")) ∧
    write_output_file fs files outP root =
      ("<files>\n") ++ strJoin ((emitted_entries fs files outP root).map
        (fun pr => pyIndent (file_block pr.1 pr.2) ("  "))) ++ ("</files>") := by
  refine ⟨?_, ?_, ?_⟩
  · intro fi h
    have h' : fi ∈ (collect_loop (get_ignore_spec ig).1 ml ex fs).1 := by
      simpa [collect_files] using h
    exact collect_loop_pos _ _ _ fs fi h'
  · intro pr h
    have := List.of_mem_filter h
    simpa using this
  · simp only [write_output_file, emitted_entries]
    rw [writeEntry_join fs outP root]

theorem c5_witness :
    0 < (FileInfo.mk 1 ("root/a.txt") ("hi\n")).line_count ∧
    (((("a.txt"), ("hi\n")) : String × String)).2 ≠ ("") :=
  ⟨(c5_no_empty_output fs1 IgnoreFile.missing none none [] ("root/out.log") ("root")).1
      ⟨1, ("root/a.txt"), ("hi\n")⟩ (by decide),
   (c5_no_empty_output fs1 IgnoreFile.missing none none [⟨1, ("root/a.txt"), ("hi\n")⟩]
      ("root/out.log") ("root")).2.1 ((("a.txt"), ("hi\n"))) (by decide)⟩

/-! Order facts about the embedded Python string comparison. -/

theorem str_ext (a b : String) (h : a.data = b.data) : a = b := by
  cases a; cases b; cases h; rfl

theorem charListLe_total : ∀ a b : List Char, charListLe a b = true ∨ charListLe b a = true := by
  intro a
  induction a with
  | nil => intro b; left; rfl
  | cons x xs ih =>
    intro b
    cases b with
    | nil => right; rfl
    | cons y ys =>
      rcases lt_trichotomy x y with h | h | h
      · left; simp [charListLe, h]
      · subst h
        rcases ih ys with h2 | h2
        · left; simp [charListLe, lt_irrefl, h2]
        · right; simp [charListLe, lt_irrefl, h2]
      · right; simp [charListLe, h]

theorem charListLe_trans :
    ∀ a b c : List Char, charListLe a b = true → charListLe b c = true → charListLe a c = true := by
  intro a
  induction a with
  | nil => intro b c _ _; rfl
  | cons x xs ih =>
    intro b c hab hbc
    cases b with
    | nil => simp [charListLe] at hab
    | cons y ys =>
      cases c with
      | nil => simp [charListLe] at hbc
      | cons z zs =>
        rcases lt_trichotomy x y with h1 | h1 | h1
        · rcases lt_trichotomy y z with h2 | h2 | h2
          · have : x < z := lt_trans h1 h2
            simp [charListLe, this]
          · subst h2; simp [charListLe, h1]
          · exfalso
            simp [charListLe, h2, not_lt_of_gt h2] at hbc
        · subst h1
          rcases lt_trichotomy x z with h2 | h2 | h2
          · simp [charListLe, h2]
          · subst h2
            simp only [charListLe, lt_irrefl, if_false] at hab hbc ⊢
            exact ih ys zs hab hbc
          · exfalso
            simp [charListLe, h2, not_lt_of_gt h2] at hbc
        · exfalso
          simp [charListLe, h1, not_lt_of_gt h1] at hab

theorem charListLe_antisymm :
    ∀ a b : List Char, charListLe a b = true → charListLe b a = true → a = b := by
  intro a
  induction a with
  | nil =>
    intro b _ hba
    cases b with
    | nil => rfl
    | cons y ys => simp [charListLe] at hba
  | cons x xs ih =>
    intro b hab hba
    cases b with
    | nil => simp [charListLe] at hab
    | cons y ys =>
      rcases lt_trichotomy x y with h | h | h
      · exfalso; simp [charListLe, h, not_lt_of_gt h] at hba
      · subst h
        simp only [charListLe, lt_irrefl, if_false] at hab hba
        rw [ih ys hab hba]
      · exfalso; simp [charListLe, h, not_lt_of_gt h] at hab

theorem charListLe_append :
    ∀ p a b : List Char, charListLe (p ++ a) (p ++ b) = charListLe a b := by
  intro p a b
  induction p with
  | nil => rfl
  | cons c cs ih => simp [charListLe, lt_irrefl, ih]

instance : IsTotal FileInfo pathLe := ⟨fun a b => charListLe_total _ _⟩

instance : IsTrans FileInfo pathLe := ⟨fun _ _ _ => charListLe_trans _ _ _⟩

/-- Strict path order on records: path-ascending and distinct. -/
def pathStrict (a b : FileInfo) : Prop := pathLe a b ∧ a.path ≠ b.path

instance : IsAntisymm FileInfo pathStrict :=
  ⟨fun a b h₁ h₂ =>
    absurd (str_ext _ _ (charListLe_antisymm _ _ h₁.1 h₂.1)) h₁.2⟩

/-- Strict code-point order on strings. -/
def strLt (a b : String) : Prop := charListLe a.data b.data = true ∧ a ≠ b

theorem pairwise_imp_mem {α : Type} {R S : α → α → Prop} :
    ∀ l : List α, (∀ a ∈ l, ∀ b ∈ l, R a b → S a b) → l.Pairwise R → l.Pairwise S := by
  intro l
  induction l with
  | nil => intro _ _; exact List.Pairwise.nil
  | cons x xs ih =>
    intro hmem hp
    rcases List.pairwise_cons.mp hp with ⟨hx, hxs⟩
    refine List.Pairwise.cons ?_ (ih ?_ hxs)
    · intro b hb
      exact hmem x (List.mem_cons_self _ _) b (List.mem_cons_of_mem _ hb) (hx b hb)
    · intro a ha b hb
      exact hmem a (List.mem_cons_of_mem _ ha) b (List.mem_cons_of_mem _ hb)

theorem stripLead_append : ∀ pre rest : List Char, stripLead pre (pre ++ rest) = some rest := by
  intro pre
  induction pre with
  | nil => intro rest; rfl
  | cons c cs ih => intro rest; simp [stripLead, ih]

theorem relative_to_append (root r : String) : relative_to (root ++ ("/") ++ r) root = r := by
  unfold relative_to
  have hd : (root ++ ("/") ++ r).data = (root ++ ("/")).data ++ r.data := str_data_append _ _
  rw [hd, stripLead_append]

/-! C4. The writer emits entries in strictly ascending relative-path order,
independently of the order in which the walker produced the records. -/

/-- C4: for record lists that are permutations of each other, with pairwise
distinct paths all lying under the root, the writer produces the identical
document, and the emitted entries are strictly ascending in relative path
(code-point lexicographic, which on UTF-8 equals byte order). -/
theorem c4_sorted_output (fs : List FSEntry) (outP root : String)
    (files₁ files₂ : List FileInfo)
    (hperm : files₁.Perm files₂)
    (hnd : (files₁.map FileInfo.path).Nodup)
    (hpre : ∀ fi ∈ files₁, ∃ r : String, fi.path = root ++ ("/") ++ r) :
    write_output_file fs files₁ outP root = write_output_file fs files₂ outP root ∧
    ((emitted_entries fs files₁ outP root).map Prod.fst).Pairwise strLt := by
  have hperm₁ := List.perm_insertionSort pathLe files₁
  have hperm₂ := List.perm_insertionSort pathLe files₂
  have hsorted₁ := List.sorted_insertionSort pathLe files₁
  have hsorted₂ := List.sorted_insertionSort pathLe files₂
  have hnd₂ : (files₂.map FileInfo.path).Nodup := ((hperm.map _).nodup_iff).mp hnd
  have hnds₁ : ((List.insertionSort pathLe files₁).map FileInfo.path).Nodup :=
    ((hperm₁.map _).nodup_iff).mpr hnd
  have hnds₂ : ((List.insertionSort pathLe files₂).map FileInfo.path).Nodup :=
    ((hperm₂.map _).nodup_iff).mpr hnd₂
  have hpne₁ : (List.insertionSort pathLe files₁).Pairwise (fun a b => a.path ≠ b.path) :=
    List.pairwise_map.mp hnds₁
  have hpne₂ : (List.insertionSort pathLe files₂).Pairwise (fun a b => a.path ≠ b.path) :=
    List.pairwise_map.mp hnds₂
  have hstrict₁ : (List.insertionSort pathLe files₁).Pairwise pathStrict :=
    hsorted₁.and hpne₁
  have hstrict₂ : (List.insertionSort pathLe files₂).Pairwise pathStrict :=
    hsorted₂.and hpne₂
  have heq : List.insertionSort pathLe files₁ = List.insertionSort pathLe files₂ :=
    List.eq_of_perm_of_sorted (hperm₁.trans (hperm.trans hperm₂.symm)) hstrict₁ hstrict₂
  constructor
  · simp only [write_output_file]
    rw [heq]
  · have hmem : ∀ a ∈ List.insertionSort pathLe files₁, ∃ r : String,
        a.path = root ++ ("/") ++ r := by
      intro a ha
      exact hpre a (hperm₁.mem_iff.mp ha)
    have hrel : (List.insertionSort pathLe files₁).Pairwise
        (fun a b => strLt (relative_to a.path root) (relative_to b.path root)) := by
      refine pairwise_imp_mem _ ?_ hstrict₁
      intro a ha b hb hab
      obtain ⟨ra, hra⟩ := hmem a ha
      obtain ⟨rb, hrb⟩ := hmem b hb
      rw [hra, hrb, relative_to_append, relative_to_append]
      constructor
      · have h1 : charListLe a.path.data b.path.data = true := hab.1
        rw [hra, hrb] at h1
        simp only [str_data_append] at h1
        rwa [charListLe_append] at h1
      · intro hcon
        apply hab.2
        rw [hra, hrb, hcon]
    have hmapped : ((List.insertionSort pathLe files₁).map
        (fun fi => (relative_to fi.path root, writer_read fs outP fi.path))).Pairwise
        (fun pr₁ pr₂ => strLt pr₁.1 pr₂.1) :=
      List.pairwise_map.mpr hrel
    have hfiltered := hmapped.filter (fun pr => !(pr.2 == ("")))
    exact List.pairwise_map.mpr hfiltered

def fi_a : FileInfo := ⟨1, ("r/a.txt"), ("y\n")⟩

def fi_b : FileInfo := ⟨1, ("r/b.txt"), ("x\n")⟩

def fsW : List FSEntry :=
  [⟨("r/b.txt"), true, ReadResult.ok ("x\n")⟩, ⟨("r/a.txt"), true, ReadResult.ok ("y\n")⟩]

theorem c4_witness :
    write_output_file fsW [fi_b, fi_a] ("r/out.log") ("r") =
      write_output_file fsW [fi_a, fi_b] ("r/out.log") ("r") ∧
    ((emitted_entries fsW [fi_b, fi_a] ("r/out.log") ("r")).map Prod.fst).Pairwise strLt :=
  c4_sorted_output fsW ("r/out.log") ("r") [fi_b, fi_a] [fi_a, fi_b]
    (List.Perm.swap fi_a fi_b [])
    (by decide)
    (by
      intro fi h
      rcases List.mem_cons.mp h with rfl | h2
      · exact ⟨("b.txt"), by decide⟩
      · rcases List.mem_cons.mp h2 with rfl | h3
        · exact ⟨("a.txt"), by decide⟩
        · cases h3)

/-! Line-chunk theory: how textwrap.indent treats lines. -/

theorem first_newline :
    ∀ cs : List Char, ('\n' ∉ cs) ∨ (∃ a rest, '\n' ∉ a ∧ cs = a ++ '\n' :: rest) := by
  intro cs
  induction cs with
  | nil => left; simp
  | cons c cs' ih =>
    by_cases hc : c = '\n'
    · right; exact ⟨[], cs', by simp, by rw [hc]; rfl⟩
    · rcases ih with h | ⟨a, rest, ha, rfl⟩
      · left
        intro hmem
        rcases List.mem_cons.mp hmem with h1 | h1
        · exact hc h1.symm
        · exact h h1
      · right
        refine ⟨c :: a, rest, ?_, rfl⟩
        intro hmem
        rcases List.mem_cons.mp hmem with h1 | h1
        · exact hc h1.symm
        · exact ha h1

theorem lineChunks_line :
    ∀ a : List Char, '\n' ∉ a →
      ∀ y, lineChunks (a ++ '\n' :: y) = (a ++ ['\n']) :: lineChunks y := by
  intro a
  induction a with
  | nil => intro _ y; simp [lineChunks]
  | cons c as ih =>
    intro ha y
    have hc : ¬(c = '\n') := by
      intro h
      exact ha (by rw [h]; exact List.mem_cons_self _ _)
    have has : '\n' ∉ as := by
      intro h
      exact ha (List.mem_cons_of_mem _ h)
    show lineChunks (c :: (as ++ '\n' :: y)) = _
    simp only [lineChunks, if_neg hc, ih has y]
    simp

theorem lineChunks_no_nl : ∀ a : List Char, '\n' ∉ a → a ≠ [] → lineChunks a = [a] := by
  intro a
  induction a with
  | nil => intro _ h; cases h rfl
  | cons c as ih =>
    intro ha _
    have hc : ¬(c = '\n') := by
      intro h
      exact ha (by rw [h]; exact List.mem_cons_self _ _)
    have has : '\n' ∉ as := by
      intro h
      exact ha (List.mem_cons_of_mem _ h)
    by_cases hase : as = []
    · subst hase; simp [lineChunks, hc]
    · simp only [lineChunks, if_neg hc, ih has hase]

/-- Induction on a char list by its line structure: empty, newline-free, or a
newline-free first line followed by the rest. -/
theorem chunk_induction (P : List Char → Prop)
    (h0 : P [])
    (h1 : ∀ cs : List Char, '\n' ∉ cs → cs ≠ [] → P cs)
    (h2 : ∀ a rest : List Char, '\n' ∉ a → P rest → P (a ++ '\n' :: rest)) :
    ∀ cs, P cs := by
  have H : ∀ n, ∀ cs : List Char, cs.length ≤ n → P cs := by
    intro n
    induction n with
    | zero =>
      intro cs h
      have hz : cs = [] := List.length_eq_zero.mp (Nat.le_zero.mp h)
      rw [hz]; exact h0
    | succ n ih =>
      intro cs h
      rcases first_newline cs with hno | ⟨a, rest, ha, rfl⟩
      · cases cs with
        | nil => exact h0
        | cons c cs' => exact h1 _ hno (by simp)
      · refine h2 a rest ha (ih rest ?_)
        simp only [List.length_append, List.length_cons] at h
        omega
  exact fun cs => H cs.length cs le_rfl

theorem lineChunks_append_of_line :
    ∀ x : List Char, (∃ x', x = x' ++ ['\n']) →
      ∀ y, lineChunks (x ++ y) = lineChunks x ++ lineChunks y := by
  have key : ∀ x' : List Char,
      ∀ y, lineChunks ((x' ++ ['\n']) ++ y) = lineChunks (x' ++ ['\n']) ++ lineChunks y := by
    intro x'
    induction x' using chunk_induction with
    | h0 =>
      intro y
      simp [lineChunks]
    | h1 cs hno hne =>
      intro y
      have h1 : (cs ++ ['\n']) ++ y = cs ++ '\n' :: y := by simp
      rw [h1, lineChunks_line cs hno y]
      have h2 : cs ++ ['\n'] = cs ++ '\n' :: ([] : List Char) := by simp
      rw [h2, lineChunks_line cs hno []]
      simp [lineChunks]
    | h2 a rest ha ih =>
      intro y
      have h1 : ((a ++ '\n' :: rest) ++ ['\n']) ++ y = a ++ '\n' :: ((rest ++ ['\n']) ++ y) := by
        simp
      have h2 : (a ++ '\n' :: rest) ++ ['\n'] = a ++ '\n' :: (rest ++ ['\n']) := by simp
      rw [h1, lineChunks_line a ha, h2, lineChunks_line a ha, ih y]
      simp
  intro x hx y
  obtain ⟨x', rfl⟩ := hx
  exact key x' y

theorem pyIndentData_step (p a rest : List Char) (ha : '\n' ∉ a) :
    pyIndentData p (a ++ '\n' :: rest) =
      (if isBlankLine (a ++ ['\n']) then a ++ ['\n'] else p ++ (a ++ ['\n'])) ++
        pyIndentData p rest := by
  unfold pyIndentData
  rw [lineChunks_line a ha rest]
  simp

theorem blank_append_ws (q l : List Char) (hq : q.all Char.isWhitespace = true) :
    isBlankLine (q ++ l) = isBlankLine l := by
  simp [isBlankLine, List.all_append, hq]

theorem blank_append_nl (l : List Char) : isBlankLine (l ++ ['\n']) = isBlankLine l := by
  simp [isBlankLine, List.all_append]

/-- Appending a final newline commutes with indentation: the last line keeps its
treatment and a trailing blank line stays unindented. -/
theorem pyIndentData_append_nl (p : List Char) :
    ∀ cs : List Char, pyIndentData p (cs ++ ['\n']) = pyIndentData p cs ++ ['\n'] := by
  intro cs
  induction cs using chunk_induction with
  | h0 => simp [pyIndentData, lineChunks, isBlankLine]
  | h1 cs hno hne =>
    have h1 : cs ++ ['\n'] = cs ++ '\n' :: ([] : List Char) := by simp
    rw [h1, pyIndentData_step p cs [] hno]
    have h2 : pyIndentData p [] = [] := rfl
    rw [h2, List.append_nil]
    have h3 : pyIndentData p cs = if isBlankLine cs then cs else p ++ cs := by
      unfold pyIndentData
      rw [lineChunks_no_nl cs hno hne]
      simp
    rw [h3, blank_append_nl]
    by_cases hb : isBlankLine cs
    · simp [hb]
    · simp [hb]
  | h2 a rest ha ih =>
    have h1 : (a ++ '\n' :: rest) ++ ['\n'] = a ++ '\n' :: (rest ++ ['\n']) := by simp
    rw [h1, pyIndentData_step p a (rest ++ ['\n']) ha, ih,
      pyIndentData_step p a rest ha]
    simp

/-- The lines of an indented text are exactly the treated lines of the original
(the indent pfx contains no newline, so the line structure is unchanged). -/
theorem lineChunks_pyIndentData (p : List Char) (hp : '\n' ∉ p) :
    ∀ cs : List Char,
      lineChunks (pyIndentData p cs) =
        (lineChunks cs).map (fun l => if isBlankLine l then l else p ++ l) := by
  intro cs
  induction cs using chunk_induction with
  | h0 => simp [pyIndentData, lineChunks]
  | h1 cs hno hne =>
    have hchunk := lineChunks_no_nl cs hno hne
    by_cases hb : isBlankLine cs = true
    · have h3 : pyIndentData p cs = cs := by
        unfold pyIndentData
        rw [hchunk]
        simp [hb]
      rw [h3, hchunk]
      simp [hb]
    · have h3 : pyIndentData p cs = p ++ cs := by
        unfold pyIndentData
        rw [hchunk]
        simp [hb]
      have hpc : '\n' ∉ p ++ cs := by
        intro hmem
        rcases List.mem_append.mp hmem with h | h
        · exact hp h
        · exact hno h
      rw [h3, hchunk, lineChunks_no_nl (p ++ cs) hpc (by simp [hne])]
      simp [hb]
  | h2 a rest ha ih =>
    rw [pyIndentData_step p a rest ha, lineChunks_line a ha rest]
    by_cases hb : isBlankLine (a ++ ['\n']) = true
    · rw [if_pos hb]
      have h4 : (a ++ ['\n']) ++ pyIndentData p rest = a ++ '\n' :: pyIndentData p rest := by
        simp
      rw [h4, lineChunks_line a ha (pyIndentData p rest), ih]
      simp [hb]
    · rw [if_neg hb]
      have hpa : '\n' ∉ p ++ a := by
        intro hmem
        rcases List.mem_append.mp hmem with h | h
        · exact hp h
        · exact ha h
      have h5 : (p ++ (a ++ ['\n'])) ++ pyIndentData p rest =
          (p ++ a) ++ '\n' :: pyIndentData p rest := by simp
      rw [h5, lineChunks_line (p ++ a) hpa (pyIndentData p rest), ih]
      simp [hb]

/-- Indentation distributes over concatenation when the first part ends with a
newline. -/
theorem pyIndentData_append (p : List Char) (x y : List Char) (hx : ∃ x', x = x' ++ ['\n']) :
    pyIndentData p (x ++ y) = pyIndentData p x ++ pyIndentData p y := by
  unfold pyIndentData
  rw [lineChunks_append_of_line x hx y]
  simp

/-- The same distribution law with the newline-terminated shape explicit. -/
theorem pyIndentData_append2 (p x' y : List Char) :
    pyIndentData p ((x' ++ ['\n']) ++ y) =
      pyIndentData p (x' ++ ['\n']) ++ pyIndentData p y :=
  pyIndentData_append p (x' ++ ['\n']) y ⟨x', rfl⟩

/-- Composing two indents with a whitespace inner pfx indents once by the
concatenated pfx. -/
theorem pyIndentData_comp (p q : List Char) (hq1 : '\n' ∉ q) (hq2 : q.all Char.isWhitespace = true)
    (cs : List Char) :
    pyIndentData p (pyIndentData q cs) = pyIndentData (p ++ q) cs := by
  show ((lineChunks (pyIndentData q cs)).map _).flatten = _
  rw [lineChunks_pyIndentData q hq1 cs, List.map_map]
  show (List.map (fun l => if isBlankLine (if isBlankLine l then l else q ++ l) then
      (if isBlankLine l then l else q ++ l)
    else p ++ (if isBlankLine l then l else q ++ l)) (lineChunks cs)).flatten = _
  have hfun : (fun l => if isBlankLine (if isBlankLine l then l else q ++ l) then
      (if isBlankLine l then l else q ++ l)
    else p ++ (if isBlankLine l then l else q ++ l)) =
      (fun l : List Char => if isBlankLine l then l else (p ++ q) ++ l) := by
    funext l
    by_cases hb : isBlankLine l = true
    · simp [hb]
    · rw [if_neg hb, blank_append_ws q l hq2, if_neg hb, if_neg hb]
      simp [List.append_assoc]
  rw [hfun]
  rfl

/-! C8. Indentation of emitted content: textwrap.indent leaves blank lines without
the indent, so not every line is indented six spaces. -/

/-- C8 counterexample: for content with a blank middle line, the emitted document
carries the blank line with no indentation, where the claim requires six spaces
on every line; the spec-faithful writer produces a different document. -/
theorem c8_counterexample :
    write_output_file fsB [fiB] ("root/out.log") ("root") =
      "<files>\n  <file>\n    <path>m.txt</path>\n    <content>\n      a\n\n      b\n\n    </content>\n  </file>\n</files>" ∧
    spec_write_output_file fsB [fiB] ("root/out.log") ("root") =
      "<files>\n  <file>\n    <path>m.txt</path>\n    <content>\n      a\n      \n      b\n  \n    </content>\n  </file>\n</files>" ∧
    ("<files>\n  <file>\n    <path>m.txt</path>\n    <content>\n      a\n\n      b\n\n    </content>\n  </file>\n</files>" : String) ≠
      "<files>\n  <file>\n    <path>m.txt</path>\n    <content>\n      a\n      \n      b\n  \n    </content>\n  </file>\n</files>" := by
  refine ⟨by decide, by decide, by decide⟩

theorem pyIndent_data (s p : String) : (pyIndent s p).data = pyIndentData p.data s.data := rfl

/-- C8 amended: tags are nested two spaces per level, and content lines are
indented six spaces except that whitespace-only lines are left without the added
indent: the emitted block equals the tag skeleton around pyIndent with a
six-space pfx, whose lines are exactly the original lines with the six-space
pfx added to every non-whitespace-only line. -/
theorem c8_amended (rel c : String) (hrel : '\n' ∉ rel.data) :
    pyIndent (file_block rel c) ("  ") =
      ("  <file>\n    <path>") ++ rel ++ ("</path>\n    <content>\n") ++
        pyIndent c ("      ") ++ ("\n    </content>\n  </file>\n") ∧
    lineChunks (pyIndent c ("      ")).data =
      (lineChunks c.data).map
        (fun l => if isBlankLine l then l else ("      ").data ++ l) := by
  constructor
  · apply str_ext
    rw [pyIndent_data]
    have hblock : (file_block rel c).data =
        (("<file>").data ++ ['\n']) ++
          (((("  <path>").data ++ rel.data ++ ("</path>").data) ++ ['\n']) ++
            ((("  <content>").data ++ ['\n']) ++
              ((pyIndentData ("    ").data c.data ++ ['\n']) ++
                ("  </content>\n</file>\n").data))) := by
      simp only [file_block, str_data_append, pyIndent_data]
      simp [List.append_assoc]
    rw [hblock]
    rw [pyIndentData_append2 (("  ").data) (("<file>").data)]
    rw [pyIndentData_append2 (("  ").data) (("  <path>").data ++ rel.data ++ ("</path>").data)]
    rw [pyIndentData_append2 (("  ").data) (("  <content>").data)]
    rw [pyIndentData_append2 (("  ").data) (pyIndentData ("    ").data c.data)]
    have hI1 : pyIndentData ("  ").data (("<file>").data ++ ['\n']) = ("  <file>\n").data := by
      decide
    have hI2 : pyIndentData ("  ").data
        ((("  <path>").data ++ rel.data ++ ("</path>").data) ++ ['\n']) =
        (("    <path>").data ++ rel.data ++ ("</path>").data) ++ ['\n'] := by
      have hnomid : '\n' ∉ ("  <path>").data ++ rel.data ++ ("</path>").data := by
        intro hmem
        rcases List.mem_append.mp hmem with h | h
        · rcases List.mem_append.mp h with h1 | h1
          · revert h1; decide
          · exact hrel h1
        · revert h; decide
      have hmid : (("  <path>").data ++ rel.data ++ ("</path>").data) ++ ['\n'] =
          (("  <path>").data ++ rel.data ++ ("</path>").data) ++ '\n' :: ([] : List Char) := rfl
      rw [hmid, pyIndentData_step _ _ _ hnomid]
      have h1 : (("  <path>").data).all Char.isWhitespace = false := by decide
      have hblank : isBlankLine
          ((("  <path>").data ++ rel.data ++ ("</path>").data) ++ ['\n']) = false := by
        simp [isBlankLine, List.all_append, h1]
      rw [hblank]
      have hnil : pyIndentData ("  ").data [] = [] := rfl
      simp only [Bool.false_eq_true, if_false, hnil, List.append_nil]
      simp only [← List.append_assoc]
      rw [show ("  ").data ++ ("  <path>").data = ("    <path>").data from by decide]
    have hI3 : pyIndentData ("  ").data (("  <content>").data ++ ['\n']) =
        ("    <content>\n").data := by decide
    have hI4 : pyIndentData ("  ").data (pyIndentData ("    ").data c.data ++ ['\n']) =
        pyIndentData ("      ").data c.data ++ ['\n'] := by
      have e : pyIndentData ("    ").data c.data ++ ['\n'] =
          pyIndentData ("    ").data (c.data ++ ['\n']) :=
        (pyIndentData_append_nl (("    ").data) c.data).symm
      rw [e, pyIndentData_comp ("  ").data ("    ").data (by decide) (by decide),
        show ("  ").data ++ ("    ").data = ("      ").data from by decide,
        pyIndentData_append_nl]
    have hI5 : pyIndentData ("  ").data ("  </content>\n</file>\n").data =
        ("    </content>\n  </file>\n").data := by decide
    rw [hI1, hI2, hI3, hI4, hI5]
    simp only [str_data_append, pyIndent_data]
    simp [List.append_assoc]
  · rw [pyIndent_data]
    exact lineChunks_pyIndentData (("      ").data) (by decide) c.data

theorem c8_amended_witness :
    pyIndent (file_block ("m.txt") ("a\n\nb\n")) ("  ") =
      ("  <file>\n    <path>") ++ ("m.txt") ++ ("</path>\n    <content>\n") ++
        pyIndent ("a\n\nb\n") ("      ") ++ ("\n    </content>\n  </file>\n") ∧
    lineChunks (pyIndent ("a\n\nb\n") ("      ")).data =
      (lineChunks ("a\n\nb\n" : String).data).map
        (fun l => if isBlankLine l then l else ("      ").data ++ l) :=
  c8_amended ("m.txt") ("a\n\nb\n") (by decide)

/-! C3: idempotence.  The writer truncates the output path at open and its bytes
stay buffered until close, so a rerun that collects the first document re-reads
it as empty during writing and skips its block: the second document equals the
first byte for byte. -/

theorem readAt_append (fs : List FSEntry) (e : FSEntry) (p : String)
    (h : (fs.find? (fun x => x.path == p)).isSome = true) :
    readAt (fs ++ [e]) p = readAt fs p := by
  unfold readAt
  rw [List.find?_append]
  obtain ⟨v, hv⟩ := Option.isSome_iff_exists.mp h
  rw [hv]
  rfl

theorem main_files_find (fs : List FSEntry) (cfg : Config) (fi : FileInfo)
    (h : fi ∈ main_files fs cfg) :
    (fs.find? (fun x => x.path == fi.path)).isSome = true := by
  have h1 : fi ∈ (collect_loop (get_ignore_spec cfg.ignoreFile).1 (effective_max_lines cfg)
      (exclude_set cfg) fs).1 := by
    simpa [main_files, collect_files] using h
  obtain ⟨e, he, hp⟩ := collect_loop_path_mem _ _ _ fs fi h1
  rw [List.find?_isSome]
  exact ⟨e, he, by simp [hp]⟩

theorem collect_loop_append (spec : PathSpec) (ml : Option Nat) (ex : Option (List String)) :
    ∀ fs₁ fs₂ : List FSEntry,
      (collect_loop spec ml ex (fs₁ ++ fs₂)).1 =
        (collect_loop spec ml ex fs₁).1 ++ (collect_loop spec ml ex fs₂).1 := by
  intro fs₁ fs₂
  induction fs₁ with
  | nil => rfl
  | cons x rest ih =>
    show (collect_loop spec ml ex (x :: (rest ++ fs₂))).1 = _
    simp only [collect_loop]
    split
    · exact ih
    · split
      · exact ih
      · split
        · exact ih
        · split
          · exact ih
          · split
            · simp only [List.cons_append]
              rw [ih]
            · exact ih

theorem collect_loop_paths_sublist (spec : PathSpec) (ml : Option Nat)
    (ex : Option (List String)) :
    ∀ fs : List FSEntry,
      ((collect_loop spec ml ex fs).1.map FileInfo.path).Sublist (fs.map FSEntry.path) := by
  intro fs
  induction fs with
  | nil => simp [collect_loop]
  | cons e rest ih =>
    show ((collect_loop spec ml ex (e :: rest)).1.map FileInfo.path).Sublist _
    simp only [collect_loop]
    split
    · exact ih.cons _
    · split
      · exact ih.cons _
      · split
        · exact ih.cons _
        · split
          · exact ih.cons _
          · split
            · simp only [List.map_cons]
              exact ih.cons₂ _
            · exact ih.cons _

/-- Dropping the entries on which the writer emits nothing leaves the document
unchanged. -/
theorem strJoin_map_filter (w : FileInfo → String) (P : FileInfo → Bool) :
    ∀ l : List FileInfo, (∀ y ∈ l, P y = false → w y = ("")) →
      strJoin (l.map w) = strJoin ((l.filter P).map w) := by
  intro l
  induction l with
  | nil => intro _; rfl
  | cons x rest ih =>
    intro h
    have hrest : ∀ y ∈ rest, P y = false → w y = ("") := by
      intro y hy
      exact h y (List.mem_cons_of_mem _ hy)
    by_cases hx : P x = true
    · simp only [List.map_cons, List.filter_cons, hx, if_true, strJoin]
      rw [ih hrest]
    · have hx' : P x = false := by revert hx; cases P x <;> simp
      simp only [List.map_cons, List.filter_cons, hx', Bool.false_eq_true, if_false, strJoin]
      rw [h x (List.mem_cons_self _ _) hx', empty_str_append, ih hrest]

/-- Sorted by path and pairwise distinct paths gives the strict path order. -/
theorem sorted_nodup_strict (l : List FileInfo) (hs : List.Sorted pathLe l)
    (hnd : (l.map FileInfo.path).Nodup) : l.Pairwise pathStrict :=
  hs.and (List.pairwise_map.mp hnd)

/-- The document does not depend on records at the output path (the writer emits
nothing for them) nor on how the rest is ordered, and only on what the surviving
records re-read. -/
theorem write_skip_output (fs₁ fs₂ : List FSEntry) (p root : String)
    (files₁ files₂ : List FileInfo)
    (hperm : (files₂.filter (fun y => !(y.path == p))).Perm
      (files₁.filter (fun y => !(y.path == p))))
    (hnd : ((files₁.filter (fun y => !(y.path == p))).map FileInfo.path).Nodup)
    (hread : ∀ y ∈ files₁, readAt fs₂ y.path = readAt fs₁ y.path) :
    write_output_file fs₂ files₂ p root = write_output_file fs₁ files₁ p root := by
  have hvanish₁ : ∀ y : FileInfo, (fun y : FileInfo => !(y.path == p)) y = false →
      writeEntry fs₁ p root y = ("") := by
    intro y hy
    have hyp : (y.path == p) = true := by simpa using hy
    simp [writeEntry, writer_read, hyp]
  have hvanish₂ : ∀ y : FileInfo, (fun y : FileInfo => !(y.path == p)) y = false →
      writeEntry fs₂ p root y = ("") := by
    intro y hy
    have hyp : (y.path == p) = true := by simpa using hy
    simp [writeEntry, writer_read, hyp]
  have hperm₁ : ((List.insertionSort pathLe files₁).filter
      (fun y => !(y.path == p))).Perm (files₁.filter (fun y => !(y.path == p))) :=
    (List.perm_insertionSort pathLe files₁).filter _
  have hperm₂ : ((List.insertionSort pathLe files₂).filter
      (fun y => !(y.path == p))).Perm (files₁.filter (fun y => !(y.path == p))) :=
    ((List.perm_insertionSort pathLe files₂).filter _).trans hperm
  have hnd₁ : (((List.insertionSort pathLe files₁).filter
      (fun y => !(y.path == p))).map FileInfo.path).Nodup :=
    (hperm₁.map FileInfo.path).nodup_iff.mpr hnd
  have hnd₂ : (((List.insertionSort pathLe files₂).filter
      (fun y => !(y.path == p))).map FileInfo.path).Nodup :=
    (hperm₂.map FileInfo.path).nodup_iff.mpr hnd
  have hstrict₁ := sorted_nodup_strict _
    (List.Pairwise.filter _ (List.sorted_insertionSort pathLe files₁)) hnd₁
  have hstrict₂ := sorted_nodup_strict _
    (List.Pairwise.filter _ (List.sorted_insertionSort pathLe files₂)) hnd₂
  have hfeq : (List.insertionSort pathLe files₂).filter (fun y => !(y.path == p)) =
      (List.insertionSort pathLe files₁).filter (fun y => !(y.path == p)) :=
    List.eq_of_perm_of_sorted (hperm₂.trans hperm₁.symm) hstrict₂ hstrict₁
  have hagree : ∀ y ∈ (List.insertionSort pathLe files₁).filter
      (fun y => !(y.path == p)),
      writeEntry fs₂ p root y = writeEntry fs₁ p root y := by
    intro y hy
    have hys : y ∈ List.insertionSort pathLe files₁ :=
      (List.filter_sublist _).subset hy
    have hmem : y ∈ files₁ := (List.mem_insertionSort pathLe).mp hys
    by_cases hyp : (y.path == p) = true
    · simp [writeEntry, writer_read, hyp]
    · have hyp' : (y.path == p) = false := by revert hyp; cases y.path == p <;> simp
      simp only [writeEntry, writer_read, hyp', if_false]
      rw [hread y hmem]
  have hmid : strJoin ((List.insertionSort pathLe files₂).map (writeEntry fs₂ p root)) =
      strJoin ((List.insertionSort pathLe files₁).map (writeEntry fs₁ p root)) := by
    rw [strJoin_map_filter (writeEntry fs₂ p root) (fun y => !(y.path == p)) _
        (fun y _ => hvanish₂ y),
      hfeq, List.map_congr_left hagree,
      ← strJoin_map_filter (writeEntry fs₁ p root) (fun y => !(y.path == p)) _
        (fun y _ => hvanish₁ y)]
  simp only [write_output_file]
  rw [hmid]

/-- C3: a run is a pure function of the tree and the configuration, and running
again after the first run created the output document inside the scanned tree
reproduces the document byte for byte: the writer truncates the output path at
open, so the collected stale document re-reads as empty and no block is emitted
for it, while every other record re-reads unchanged. -/
theorem c3_idempotent (fs : List FSEntry) (cfg : Config) (p o1 : String)
    (hnd : (fs.map FSEntry.path).Nodup)
    (hfresh : ∀ e ∈ fs, e.path ≠ p)
    (h1 : (main fs cfg).written = some (p, o1)) :
    (main (fs ++ [⟨p, true, ReadResult.ok o1⟩]) cfg).written = some (p, o1) := by
  by_cases hr : cfg.rootIsDir = false
  · simp [main, hr] at h1
  · have hr' : cfg.rootIsDir = true := by revert hr; cases cfg.rootIsDir <;> simp
    by_cases hd : cfg.dry = true
    · simp [main, hr', hd] at h1
    · have hd' : cfg.dry = false := by revert hd; cases cfg.dry <;> simp
      simp only [main, hr', hd', Bool.true_eq_false, if_false, Bool.false_eq_true] at h1 ⊢
      obtain ⟨hp, ho⟩ := Prod.mk.injEq .. ▸ Option.some.injEq .. ▸ h1
      rw [hp] at ho ⊢
      have hL1 : main_files fs cfg = List.insertionSort descLeP
          (collect_loop (get_ignore_spec cfg.ignoreFile).1 (effective_max_lines cfg)
            (exclude_set cfg) fs).1 := rfl
      have hLepath : ∀ y ∈ (collect_loop (get_ignore_spec cfg.ignoreFile).1
          (effective_max_lines cfg) (exclude_set cfg)
          [⟨p, true, ReadResult.ok o1⟩]).1, y.path = p := by
        intro y hy
        obtain ⟨x, hx, hxy⟩ := collect_loop_path_mem _ _ _ _ y hy
        rcases List.mem_cons.mp hx with rfl | hx2
        · exact hxy
        · cases hx2
      have hndL : ((collect_loop (get_ignore_spec cfg.ignoreFile).1 (effective_max_lines cfg)
          (exclude_set cfg) fs).1.map FileInfo.path).Nodup :=
        (collect_loop_paths_sublist _ _ _ fs).nodup hnd
      have hL1perm : (main_files fs cfg).Perm (collect_loop (get_ignore_spec cfg.ignoreFile).1
          (effective_max_lines cfg) (exclude_set cfg) fs).1 := by
        rw [hL1]
        exact List.perm_insertionSort _ _
      have hL2perm : (main_files (fs ++ [⟨p, true, ReadResult.ok o1⟩]) cfg).Perm
          ((collect_loop (get_ignore_spec cfg.ignoreFile).1 (effective_max_lines cfg)
            (exclude_set cfg) fs).1 ++
           (collect_loop (get_ignore_spec cfg.ignoreFile).1 (effective_max_lines cfg)
            (exclude_set cfg) [⟨p, true, ReadResult.ok o1⟩]).1) := by
        have : main_files (fs ++ [⟨p, true, ReadResult.ok o1⟩]) cfg =
            List.insertionSort descLeP
              (collect_loop (get_ignore_spec cfg.ignoreFile).1 (effective_max_lines cfg)
                (exclude_set cfg) (fs ++ [⟨p, true, ReadResult.ok o1⟩])).1 := rfl
        rw [this, collect_loop_append]
        exact List.perm_insertionSort _ _
      have hkey : write_output_file (fs ++ [⟨p, true, ReadResult.ok o1⟩])
          (main_files (fs ++ [⟨p, true, ReadResult.ok o1⟩]) cfg) p cfg.directory =
          write_output_file fs (main_files fs cfg) p cfg.directory := by
        apply write_skip_output
        · -- permutation of the filtered record lists
          have h3 : (((collect_loop (get_ignore_spec cfg.ignoreFile).1 (effective_max_lines cfg)
              (exclude_set cfg) fs).1 ++
              (collect_loop (get_ignore_spec cfg.ignoreFile).1 (effective_max_lines cfg)
              (exclude_set cfg) [⟨p, true, ReadResult.ok o1⟩]).1).filter
              (fun y => !(y.path == p))) =
              ((collect_loop (get_ignore_spec cfg.ignoreFile).1 (effective_max_lines cfg)
              (exclude_set cfg) fs).1.filter (fun y => !(y.path == p))) := by
            rw [List.filter_append]
            have hnil : ((collect_loop (get_ignore_spec cfg.ignoreFile).1 (effective_max_lines cfg)
                (exclude_set cfg) [⟨p, true, ReadResult.ok o1⟩]).1.filter
                (fun y => !(y.path == p))) = [] := by
              rw [List.filter_eq_nil_iff]
              intro y hy
              simp [hLepath y hy]
            rw [hnil, List.append_nil]
          have h4 := hL2perm.filter (fun y => !(y.path == p))
          rw [h3] at h4
          exact h4.trans (hL1perm.filter _).symm
        · -- path distinctness of the surviving records
          exact ((hL1perm.filter _).map FileInfo.path).nodup_iff.mpr
            (((List.filter_sublist _).map FileInfo.path).nodup hndL)
        · -- re-reads agree on every collected record
          intro y hy
          exact readAt_append fs _ y.path (main_files_find fs cfg y hy)
      rw [hkey, ho]

theorem c3_witness :
    (main fs2 cfg1).written = some (("root/root-llms.log"), out1) :=
  c3_idempotent fs1 cfg1 ("root/root-llms.log") out1 (by decide) (by decide) (by decide)

end ToDoc
